import Mathlib

/-!
A verification development for the BLT Gobbler repository: a shallow
embedding of the BLT ballot-file parser (src/parser.js) together with
theorems settling the specification claims about it.

Conventions of the embedding:
  - JavaScript strings are Lean String values; per-character work is done on
    the underlying List Char.
  - JavaScript numbers obtained from Number(...) are modelled by JSNum:
    an exact integer, a finite non-integer value, an infinity, or NaN.
    (IEEE-754 rounding of huge literals is not modelled; values are exact.)
  - A JavaScript exception escaping parse is modelled by Option.none.
    The only statement in parse that can throw on a string input is the
    field access firstLine.split when the cleaned line list is empty, so
    parse returns none exactly in that case.
  - Array.prototype.slice, shift, findIndex, split, map, filter, trim and
    replace are translated call-site by call-site, including the negative
    index arithmetic that findIndex = -1 feeds into slice.
-/

/-! ## Characters: the JavaScript whitespace and line-terminator sets -/

/-- The character set matched by the JavaScript regex class backslash-s and
removed by String.prototype.trim and by the trimming step of ToNumber:
whitespace characters together with line terminators, enumerated. -/
def jsWS (c : Char) : Bool :=
  c == ' ' || c == '\t' || c == '\n' || c == '\r' ||
  c == '\x0b' || c == '\x0c' || c == '\xa0' || c == '\u1680' ||
  c == '\u2000' || c == '\u2001' || c == '\u2002' || c == '\u2003' ||
  c == '\u2004' || c == '\u2005' || c == '\u2006' || c == '\u2007' ||
  c == '\u2008' || c == '\u2009' || c == '\u200a' ||
  c == '\u2028' || c == '\u2029' || c == '\u202f' || c == '\u205f' ||
  c == '\u3000' || c == '\ufeff'

/-- JavaScript line terminators: the characters that the regex
metacharacter dot refuses to match (relevant to the comment-stripping
regex, whose dot-star stops at any of these). -/
def lineTerm (c : Char) : Bool :=
  c == '\n' || c == '\r' || c == '\u2028' || c == '\u2029'

/-- String.prototype.trim on the character list: drop jsWS characters from
both ends. -/
def trimChars (l : List Char) : List Char :=
  ((l.dropWhile jsWS).reverse.dropWhile jsWS).reverse

/-- String.prototype.trim. -/
def jsTrimStr (s : String) : String := ⟨trimChars s.data⟩

/-! ## JavaScript String.prototype.split with a one-character separator -/

/-- String.prototype.split with a single-character separator, on character
lists.  Empty pieces between consecutive separators are kept, and the
result is never empty: splitting the empty string gives one empty piece,
exactly as in JavaScript. -/
def splitChar (sep : Char) : List Char → List (List Char)
  | [] => [[]]
  | c :: cs =>
    if c = sep then [] :: splitChar sep cs
    else
      match splitChar sep cs with
      | [] => [[c]]
      | t :: ts => (c :: t) :: ts

/-- String.prototype.split with a single-character separator. -/
def jsSplit (sep : Char) (s : String) : List String :=
  (splitChar sep s.data).map (fun l => ⟨l⟩)

/-- Rejoin the pieces produced by splitChar, interposing the separator. -/
def joinSep (sep : Char) : List (List Char) → List Char
  | [] => []
  | [x] => x
  | x :: y :: t => x ++ sep :: joinSep sep (y :: t)

/-! ## Line normalization (the cleanedLines pipeline of parse) -/

/-- Whether a character list contains a line terminator. -/
def hasLT (l : List Char) : Bool := l.any lineTerm

/-- line.replace of the regex hash-dot-star-dollar with the empty string.
Without the multiline flag, dollar anchors only the end of the string and
dot does not cross line terminators, so the (single, leftmost) match
begins at the first hash character that has no line terminator anywhere
after it; everything from that hash onward is removed.  When the line
contains no line terminator this is exactly: cut at the first hash. -/
def stripComment : List Char → List Char
  | [] => []
  | c :: cs => if c == '#' && !(hasLT cs) then [] else c :: stripComment cs

/-- line.replace of the global regex matching a straight double quote with
the empty string: remove every double-quote character. -/
def stripQuotes (l : List Char) : List Char := l.filter (fun c => c != '"')

/-- One line of the cleaning pipeline in parse: strip the comment, strip
double quotes, trim. -/
def cleanLine (s : String) : String :=
  ⟨trimChars (stripQuotes (stripComment s.data))⟩

/-- The map-and-filter applied to the split lines: clean every line, keep
the nonempty ones. -/
def normLines (ls : List String) : List String :=
  (ls.map cleanLine).filter (fun l => l != "")

/-- cleanedLines of parse: split the input text on the newline character,
clean each line, discard the lines that became empty. -/
def cleanedLines (text : String) : List String :=
  normLines (jsSplit '\n' text)

/-! ## Number(...): the JavaScript string-to-number conversion -/

/-- The value of a JavaScript Number(...) conversion, restricted to what
the parser stores: an exact integer, a finite non-integer value, a signed
infinity, or NaN. -/
inductive JSNum where
  | int : ℤ → JSNum
  | frac : ℚ → JSNum
  | inf : Bool → JSNum
  | nan : JSNum
deriving DecidableEq, Repr

/-- Decimal value of a digit list (most significant first). -/
def digitsVal (l : List Char) : ℕ :=
  l.foldl (fun a c => a * 10 + (c.toNat - 48)) 0

/-- Value of a digit list in a given radix, with a per-digit value map. -/
def radixVal (r : ℕ) (f : Char → ℕ) (l : List Char) : ℕ :=
  l.foldl (fun a c => a * r + f c) 0

def isHexDigitC (c : Char) : Bool :=
  c.isDigit || ('a' ≤ c && c ≤ 'f') || ('A' ≤ c && c ≤ 'F')

def hexDigitVal (c : Char) : ℕ :=
  if c.isDigit then c.toNat - 48
  else if 'a' ≤ c then c.toNat - 87
  else c.toNat - 55

def isOctDigitC (c : Char) : Bool := '0' ≤ c && c ≤ '7'

def isBinDigitC (c : Char) : Bool := c == '0' || c == '1'

def decDigitVal (c : Char) : ℕ := c.toNat - 48

/-- A hexadecimal integer literal 0x... as accepted by Number (no sign). -/
def isHexLit (t : List Char) : Bool :=
  match t with
  | a :: b :: rest =>
    a == '0' && (b == 'x' || b == 'X') && !rest.isEmpty && rest.all isHexDigitC
  | _ => false

/-- An octal integer literal 0o... as accepted by Number (no sign). -/
def isOctLit (t : List Char) : Bool :=
  match t with
  | a :: b :: rest =>
    a == '0' && (b == 'o' || b == 'O') && !rest.isEmpty && rest.all isOctDigitC
  | _ => false

/-- A binary integer literal 0b... as accepted by Number (no sign). -/
def isBinLit (t : List Char) : Bool :=
  match t with
  | a :: b :: rest =>
    a == '0' && (b == 'b' || b == 'B') && !rest.isEmpty && rest.all isBinDigitC
  | _ => false

/-- Strip an optional leading sign; the Bool is true for a minus sign. -/
def splitSign (l : List Char) : Bool × List Char :=
  match l with
  | [] => (false, l)
  | c :: r => if c = '+' then (false, r) else if c = '-' then (true, r) else (false, l)

def applySign (neg : Bool) (n : ℤ) : ℤ := if neg then -n else n

/-- The general decimal literal of Number: digits, an optional fraction
part introduced by a dot, and an optional exponent part, with at least one
digit before or after the dot; evaluated exactly as a rational. -/
def parseDecQ (l : List Char) : Option ℚ :=
  let d1 := l.takeWhile Char.isDigit
  let r1 := l.drop d1.length
  let fr : Option (List Char × List Char) :=
    match r1 with
    | '.' :: rest => some (rest.takeWhile Char.isDigit,
                           rest.drop (rest.takeWhile Char.isDigit).length)
    | _ => none
  let d2 := match fr with | some p => p.1 | none => []
  let r2 := match fr with | some p => p.2 | none => r1
  if d1.isEmpty && d2.isEmpty then none
  else
    let mant : ℚ := (digitsVal d1 : ℚ) + (digitsVal d2 : ℚ) / ((10 : ℚ) ^ d2.length)
    match r2 with
    | [] => some mant
    | e :: rest =>
      if e == 'e' || e == 'E' then
        let p := match rest with
          | '+' :: rr => (false, rr)
          | '-' :: rr => (true, rr)
          | rr => (false, rr)
        let dexp := p.2.takeWhile Char.isDigit
        if dexp.isEmpty then none
        else if (p.2.drop dexp.length).isEmpty then
          some (mant * (10 : ℚ) ^ (applySign p.1 (digitsVal dexp)))
        else none
      else none

/-- The signed decimal branch of Number: an optional sign followed by a
plain digit run (the common case, kept first for direct reasoning),
Infinity, or a general decimal literal. -/
def jsDecimal (t : List Char) : JSNum :=
  let p := splitSign t
  let neg := p.1
  let body := p.2
  if !body.isEmpty && body.all Char.isDigit then
    JSNum.int (applySign neg (digitsVal body))
  else if body = ("Infinity").data then JSNum.inf neg
  else
    match parseDecQ body with
    | some q => if q.den = 1 then JSNum.int (applySign neg q.num)
                else JSNum.frac (if neg then -q else q)
    | none => JSNum.nan

/-- Number(s) for a string argument: trim the StrWhiteSpace, map the empty
remainder to zero, recognize unsigned radix literals, otherwise parse a
signed decimal literal, and yield NaN on failure. -/
def jsToNumber (s : String) : JSNum :=
  let t := trimChars s.data
  if t.isEmpty then JSNum.int 0
  else if isHexLit t then JSNum.int (radixVal 16 hexDigitVal (t.drop 2))
  else if isOctLit t then JSNum.int (radixVal 8 decDigitVal (t.drop 2))
  else if isBinLit t then JSNum.int (radixVal 2 decDigitVal (t.drop 2))
  else jsDecimal t

/-! ## The data model of the parse result -/

/-- One ranking slot of a ballot: its 1-based rank and the set (list, in
written order) of candidate numbers marked at that rank. -/
structure Ranking where
  rank : ℕ
  candidates : List JSNum
deriving DecidableEq, Repr

/-- One ballot line: its weight and its ordered rankings. -/
structure Ballot where
  weight : JSNum
  rankings : List Ranking
deriving DecidableEq, Repr

/-- One candidate: the name line and the 1-based positional number.  The
JavaScript object keyed by candidate.number is modelled as the list of its
values in number order (the keys are the dense positions 1..N). -/
structure Candidate where
  name : String
  number : ℕ
deriving DecidableEq, Repr

/-- The record returned by parse.  numberOfSeats and electionName are
Options because the corresponding JavaScript expressions produce
undefined when the header has a single token or no line remains. -/
structure ElectionResult where
  withdrawnCandidates : List JSNum
  numberOfCandidates : JSNum
  numberOfSeats : Option JSNum
  ballots : List Ballot
  candidates : List Candidate
  electionName : Option String
deriving DecidableEq, Repr

/-! ## The withdrawal-line pattern -/

/-- State of the deterministic scan equivalent to the anchored regex that
detects a withdrawal line: one or more groups, each a minus sign, then one
or more digits, then optional whitespace.  start: nothing read; dash: a
minus sign just read, digits required; dig: inside a digit run (accepting);
ws: inside the trailing whitespace of a group (accepting); dead: failed. -/
inductive WSt where
  | start | dash | dig | ws | dead
deriving DecidableEq, Repr

def wStep : WSt → Char → WSt
  | WSt.start, c => if c = '-' then WSt.dash else WSt.dead
  | WSt.dash, c => if c.isDigit then WSt.dig else WSt.dead
  | WSt.dig, c =>
    if c.isDigit then WSt.dig
    else if c = '-' then WSt.dash
    else if jsWS c then WSt.ws else WSt.dead
  | WSt.ws, c =>
    if jsWS c then WSt.ws
    else if c = '-' then WSt.dash else WSt.dead
  | WSt.dead, _ => WSt.dead

/-- Whole-string test of the withdrawal-line regex (anchored at both ends,
group of minus sign, digits, optional whitespace, repeated).  The greedy
quantifiers of the regex are deterministic here, because after a digit run
only a non-digit can follow and after a whitespace run only a non-space
can follow, so the scan above decides the match. -/
def wTest (l : List Char) : Bool :=
  match l.foldl wStep WSt.start with
  | WSt.dig => true
  | WSt.ws => true
  | _ => false

/-- String.prototype.replace of the plain string minus-sign with the empty
string: remove the first minus sign only. -/
def removeFirstDash : List Char → List Char
  | [] => []
  | c :: cs => if c = '-' then cs else c :: removeFirstDash cs

/-- The withdrawn-candidates value: when the first remaining line matches
the withdrawal pattern it is split on spaces, blank pieces are dropped,
and each piece is trimmed, has its first minus sign removed, and is
converted by Number.  Otherwise the list is empty.  (Testing the regex on
a missing line coerces undefined to a non-matching string in JavaScript,
hence the empty-list branch.) -/
def withdrawnOf (others : List String) : List JSNum :=
  match others with
  | [] => []
  | l :: _ =>
    if wTest l.data then
      ((jsSplit ' ' l).filter (fun c => jsTrimStr c != "")).map
        (fun c => jsToNumber ⟨removeFirstDash (jsTrimStr c).data⟩)
    else []

/-- The lines remaining after the conditional shift of the withdrawal
line: the head is consumed exactly when it matches the pattern. -/
def postWithdrawal (others : List String) : List String :=
  match others with
  | [] => []
  | l :: rest => if wTest l.data then rest else l :: rest

/-! ## Ballot-line decoding -/

/-- The tie test of processRankings: the anchored regex digits, equal
sign, digits.  A string matches exactly when splitting it on the equal
sign yields exactly two pieces (one equal sign) that are both nonempty
digit runs. -/
def isTie (s : String) : Bool :=
  match splitChar '=' s.data with
  | [a, b] => !a.isEmpty && a.all Char.isDigit && !b.isEmpty && b.all Char.isDigit
  | _ => false

/-- The body of the map inside processRankings, decoding one ranking token
at a 0-based index: a tie splits on the equal sign and converts each piece
with Number; the lone minus sign is a skip with no candidates; any other
token is a single ranking holding its Number conversion. -/
def decodeRanking (index : ℕ) (ranking : String) : Ranking :=
  if isTie ranking then
    ⟨index + 1, (jsSplit '=' ranking).map jsToNumber⟩
  else if ranking = "-" then ⟨index + 1, []⟩
  else ⟨index + 1, [jsToNumber ranking]⟩

/-- Array.prototype.map with the element index, starting from a given
index (parse always starts it at zero). -/
def mapIdxFrom {α β : Type} (f : ℕ → α → β) : ℕ → List α → List β
  | _, [] => []
  | i, a :: t => f i a :: mapIdxFrom f (i + 1) t

/-- processRankings of parse: decode each token with its index. -/
def processRankings (candidateRankings : List String) : List Ranking :=
  mapIdxFrom decodeRanking 0 candidateRankings

/-- The space-split, per-piece-trimmed tokens of a ballot line. -/
def ballotToks (line : String) : List String :=
  (jsSplit ' ' line).map jsTrimStr

/-- The ranking tokens handed to processRankings: every token after the
leading weight token, with the final token sliced off. -/
def rankToks (line : String) : List String :=
  (ballotToks line).tail.dropLast

/-- The leading weight token of a ballot line (the token list is never
empty, so the default is unreachable). -/
def weightTok (line : String) : String :=
  (ballotToks line).headD ("")

/-- Decoding of one ballot line: Number of the weight token, and
processRankings of the remaining tokens without the final one. -/
def parseBallotLine (line : String) : Ballot :=
  ⟨jsToNumber (weightTok line), processRankings (rankToks line)⟩

/-! ## Segmentation at the end-of-ballots marker -/

/-- Array.prototype.findIndex: index of the first element satisfying the
predicate; none models the JavaScript result -1. -/
def jsFindIndex {α : Type} (p : α → Bool) : List α → Option ℕ
  | [] => none
  | a :: t => if p a then some 0 else (jsFindIndex p t).map (· + 1)

/-- The index of the first line that is exactly the string 0. -/
def endOfBallotsIdx (rest : List String) : Option ℕ :=
  jsFindIndex (fun l => l == "0") rest

/-- slice of the lines before the marker.  When the marker is absent the
JavaScript index is -1 and slice of zero to -1 drops the last element. -/
def ballotLinesOf (rest : List String) : List String :=
  match endOfBallotsIdx rest with
  | some i => rest.take i
  | none => rest.dropLast

/-- slice from one past the marker to one before the end.  When the marker
is absent the JavaScript start index is -1 + 1 = 0. -/
def candidateLinesOf (rest : List String) : List String :=
  match endOfBallotsIdx rest with
  | some i => (rest.take (rest.length - 1)).drop (i + 1)
  | none => rest.take (rest.length - 1)

/-! ## parse -/

/-- The body of parse applied to the cleaned line list.  An empty list
models the thrown TypeError (destructuring yields undefined and the
split field access throws), hence none; every other input returns a
record.  The header tokens never form an empty list, so the getD default
for numberOfCandidates is unreachable. -/
def parseFromCleaned : List String → Option ElectionResult
  | [] => none
  | firstLine :: theOtherLines =>
    let headerNums := (jsSplit ' ' firstLine).map jsToNumber
    let rest := postWithdrawal theOtherLines
    some
      { withdrawnCandidates := withdrawnOf theOtherLines
        numberOfCandidates := headerNums.getD 0 JSNum.nan
        numberOfSeats := headerNums.get? 1
        ballots := (ballotLinesOf rest).map parseBallotLine
        candidates := mapIdxFrom (fun index line => ⟨line, index + 1⟩) 0 (candidateLinesOf rest)
        electionName := rest.getLast? }

/-- parse of src/parser.js: normalize the text into cleaned lines and
decode them. -/
def parse (bltText : String) : Option ElectionResult :=
  parseFromCleaned (cleanedLines bltText)

/-! ## Spec-side definitions, for comparison with the code

These two definitions follow the words of the specification rather than
the source, and exist only to be compared with the source-derived
functions above. -/

/-- Following the words of the spec (line normalizer): remove everything
from the first hash character to the end of the line. -/
def specStripComment (l : List Char) : List Char :=
  l.takeWhile (fun c => c != '#')

/-- Following the words of the spec: a cleaned line per the normalizer
contract, with the comment stripped from the first hash onward. -/
def specCleanLine (s : String) : String :=
  ⟨trimChars (stripQuotes (specStripComment s.data))⟩

/-- Following the words of the spec (testable properties): the
whitespace-separated tokens of a line, that is, the nonempty pieces left
by splitting on spaces. -/
def lineTokens (line : String) : List String :=
  (jsSplit ' ' line).filter (fun t => t != "")

/-! ## Helper lemmas: characters -/

theorem ws_not_digit (c : Char) (h : jsWS c = true) : c.isDigit = false := by
  simp only [jsWS, Bool.or_eq_true, beq_iff_eq] at h
  repeat' obtain h | h := h
  all_goals decide

theorem digit_not_ws (c : Char) (h : c.isDigit = true) : jsWS c = false := by
  cases hw : jsWS c with
  | false => rfl
  | true => rw [ws_not_digit c hw] at h; cases h

theorem dropWhile_eq_self {α : Type} (p : α → Bool) (l : List α)
    (h : ∀ c ∈ l, p c = false) : l.dropWhile p = l := by
  cases l with
  | nil => rfl
  | cons a t => rw [List.dropWhile_cons_of_neg]; simp [h a (List.mem_cons_self a t)]

theorem trimChars_eq_self (l : List Char) (h : ∀ c ∈ l, jsWS c = false) :
    trimChars l = l := by
  unfold trimChars
  rw [dropWhile_eq_self jsWS l h,
      dropWhile_eq_self jsWS l.reverse (fun c hc => h c (List.mem_reverse.mp hc)),
      List.reverse_reverse]

theorem trimChars_digits (l : List Char) (h : l.all Char.isDigit = true) :
    trimChars l = l :=
  trimChars_eq_self l (fun c hc => digit_not_ws c (List.all_eq_true.mp h c hc))

theorem mem_trimChars (c : Char) (l : List Char) (h : c ∈ trimChars l) : c ∈ l := by
  unfold trimChars at h
  rw [List.mem_reverse] at h
  have h2 := (List.dropWhile_sublist jsWS (l := (l.dropWhile jsWS).reverse)).subset h
  rw [List.mem_reverse] at h2
  exact (List.dropWhile_sublist jsWS (l := l)).subset h2

/-! ## Helper lemmas: splitChar -/

theorem splitChar_cons_eq (sep : Char) (ds : List Char) :
    splitChar sep (sep :: ds) = [] :: splitChar sep ds := by
  conv_lhs => unfold splitChar
  rw [if_pos rfl]

theorem splitChar_cons_ne (sep d : Char) (ds : List Char) (hd : ¬ d = sep)
    (t : List Char) (ts : List (List Char)) (hs : splitChar sep ds = t :: ts) :
    splitChar sep (d :: ds) = (d :: t) :: ts := by
  conv_lhs => unfold splitChar
  rw [if_neg hd, hs]

theorem splitChar_ne_nil (sep : Char) (l : List Char) : splitChar sep l ≠ [] := by
  cases l with
  | nil => simp [splitChar]
  | cons c cs =>
    unfold splitChar
    by_cases h : c = sep
    · simp [h]
    · simp only [if_neg h]
      cases splitChar sep cs <;> simp

theorem joinSep_splitChar (sep : Char) (l : List Char) :
    joinSep sep (splitChar sep l) = l := by
  induction l with
  | nil => rfl
  | cons c cs ih =>
    unfold splitChar
    by_cases h : c = sep
    · simp only [if_pos h]
      cases hs : splitChar sep cs with
      | nil => exact absurd hs (splitChar_ne_nil sep cs)
      | cons t ts => rw [hs] at ih; simpa [joinSep, h] using ih
    · simp only [if_neg h]
      cases hs : splitChar sep cs with
      | nil => exact absurd hs (splitChar_ne_nil sep cs)
      | cons t ts =>
        rw [hs] at ih
        cases ts with
        | nil => simpa [joinSep] using ih
        | cons u us => simpa [joinSep] using ih

theorem splitChar_of_no_sep (sep : Char) (l : List Char) (h : sep ∉ l) :
    splitChar sep l = [l] := by
  induction l with
  | nil => rfl
  | cons c cs ih =>
    unfold splitChar
    have hc : ¬ c = sep := fun he => h (he ▸ List.mem_cons_self c cs)
    rw [if_neg hc, ih (fun hm => h (List.mem_cons_of_mem c hm))]

theorem splitChar_append (sep : Char) (a b : List Char) (h : sep ∉ a) :
    splitChar sep (a ++ sep :: b) = a :: splitChar sep b := by
  induction a with
  | nil => simp [splitChar]
  | cons c cs ih =>
    have hc : ¬ c = sep := fun he => h (he ▸ List.mem_cons_self c cs)
    have ih2 := ih (fun hm => h (List.mem_cons_of_mem c hm))
    rw [List.cons_append]
    exact splitChar_cons_ne sep c (cs ++ sep :: b) hc cs (splitChar sep b) ih2

theorem mem_splitChar_subset (sep : Char) (l p : List Char) (c : Char)
    (hp : p ∈ splitChar sep l) (hc : c ∈ p) : c ∈ l := by
  induction l generalizing p with
  | nil =>
    simp [splitChar] at hp
    subst hp
    cases hc
  | cons d ds ih =>
    by_cases hd : d = sep
    · rw [hd, splitChar_cons_eq sep ds] at hp
      rcases List.mem_cons.mp hp with h1 | h1
      · subst h1; cases hc
      · exact List.mem_cons_of_mem d (ih p h1 hc)
    · cases hs : splitChar sep ds with
      | nil => exact absurd hs (splitChar_ne_nil sep ds)
      | cons t ts =>
        rw [splitChar_cons_ne sep d ds hd t ts hs] at hp
        rcases List.mem_cons.mp hp with h1 | h1
        · subst h1
          rcases List.mem_cons.mp hc with h2 | h2
          · exact h2 ▸ List.mem_cons_self d ds
          · have ht : t ∈ splitChar sep ds := by
              rw [hs]; exact List.mem_cons_self t ts
            exact List.mem_cons_of_mem d (ih t ht h2)
        · have hpm : p ∈ splitChar sep ds := by
            rw [hs]; exact List.mem_cons_of_mem t h1
          exact List.mem_cons_of_mem d (ih p hpm hc)

/-! ## Helper lemmas: mapIdxFrom, processRankings -/

theorem mapIdxFrom_length {α β : Type} (f : ℕ → α → β) (n : ℕ) (l : List α) :
    (mapIdxFrom f n l).length = l.length := by
  induction l generalizing n with
  | nil => rfl
  | cons a t ih => simp [mapIdxFrom, ih]

theorem mapIdxFrom_getD {α β : Type} (f : ℕ → α → β) (n : ℕ) (l : List α)
    (i : ℕ) (d : β) (e : α) (h : i < l.length) :
    (mapIdxFrom f n l).getD i d = f (n + i) (l.getD i e) := by
  induction l generalizing n i with
  | nil => cases h
  | cons a t ih =>
    cases i with
    | zero => simp [mapIdxFrom]
    | succ j =>
      have hj : j < t.length := Nat.lt_of_succ_lt_succ h
      have heq : n + 1 + j = n + (j + 1) := by omega
      calc (mapIdxFrom f n (a :: t)).getD (j + 1) d
          = (mapIdxFrom f (n + 1) t).getD j d := List.getD_cons_succ
        _ = f (n + 1 + j) (t.getD j e) := ih (n + 1) j hj
        _ = f (n + (j + 1)) ((a :: t).getD (j + 1) e) := by rw [heq, List.getD_cons_succ]

theorem mem_mapIdxFrom {α β : Type} (f : ℕ → α → β) (n : ℕ) (l : List α) (b : β)
    (h : b ∈ mapIdxFrom f n l) : ∃ i a, a ∈ l ∧ b = f i a := by
  induction l generalizing n with
  | nil => cases h
  | cons a t ih =>
    rcases List.mem_cons.mp h with h1 | h1
    · exact ⟨n, a, List.mem_cons_self a t, h1⟩
    · obtain ⟨i, x, hx, hb⟩ := ih (n + 1) h1
      exact ⟨i, x, List.mem_cons_of_mem a hx, hb⟩

theorem processRankings_length (ts : List String) :
    (processRankings ts).length = ts.length :=
  mapIdxFrom_length decodeRanking 0 ts

theorem processRankings_getD (ts : List String) (i : ℕ) (h : i < ts.length) :
    (processRankings ts).getD i ⟨0, []⟩ = decodeRanking i (ts.getD i ("")) := by
  have h2 := mapIdxFrom_getD decodeRanking 0 ts i ⟨0, []⟩ ("") h
  simpa using h2

theorem mem_processRankings (ts : List String) (r : Ranking)
    (h : r ∈ processRankings ts) : ∃ i tok, tok ∈ ts ∧ r = decodeRanking i tok :=
  mem_mapIdxFrom decodeRanking 0 ts r h

/-! ## Helper lemmas: the tie pattern and decodeRanking -/

theorem digit_ne (c x : Char) (hc : c.isDigit = true) (hx : x.isDigit = false) :
    ¬ c = x := by
  intro he
  rw [he, hx] at hc
  cases hc

theorem digits_not_mem (a : List Char) (x : Char) (h : a.all Char.isDigit = true)
    (hx : x.isDigit = false) : x ∉ a := by
  intro hm
  have := List.all_eq_true.mp h x hm
  rw [hx] at this
  cases this

theorem isTie_of_decomp (tok : String) (a b : List Char)
    (hd : tok.data = a ++ '=' :: b) (ha : a ≠ []) (hb : b ≠ [])
    (hda : a.all Char.isDigit = true) (hdb : b.all Char.isDigit = true) :
    isTie tok = true := by
  have hna : '=' ∉ a := digits_not_mem a '=' hda (by decide)
  have hnb : '=' ∉ b := digits_not_mem b '=' hdb (by decide)
  unfold isTie
  rw [hd, splitChar_append '=' a b hna, splitChar_of_no_sep '=' b hnb]
  simp only [Bool.and_eq_true, Bool.not_eq_eq_eq_not, Bool.not_false]
  refine ⟨⟨⟨?_, hda⟩, ?_⟩, hdb⟩
  · cases a with
    | nil => exact absurd rfl ha
    | cons c cs => rfl
  · cases b with
    | nil => exact absurd rfl hb
    | cons c cs => rfl

theorem isTie_decomp (tok : String) (h : isTie tok = true) :
    ∃ a b : List Char, splitChar '=' tok.data = [a, b] ∧
      tok.data = a ++ '=' :: b ∧ a ≠ [] ∧ b ≠ [] ∧
      a.all Char.isDigit = true ∧ b.all Char.isDigit = true := by
  unfold isTie at h
  cases hs : splitChar '=' tok.data with
  | nil => rw [hs] at h; cases h
  | cons a ts =>
    cases ts with
    | nil => rw [hs] at h; cases h
    | cons b ts2 =>
      cases ts2 with
      | cons c ts3 => rw [hs] at h; cases h
      | nil =>
        rw [hs] at h
        simp only [Bool.and_eq_true, Bool.not_eq_eq_eq_not, Bool.not_false] at h
        obtain ⟨⟨⟨hea, hda⟩, heb⟩, hdb⟩ := h
        have hjoin := joinSep_splitChar '=' tok.data
        rw [hs] at hjoin
        refine ⟨a, b, rfl, ?_, ?_, ?_, hda, hdb⟩
        · rw [← hjoin]; rfl
        · intro hz; rw [hz] at hea; cases hea
        · intro hz; rw [hz] at heb; cases heb

/-! ## Helper lemmas: Number on plain digit strings -/

theorem isEmpty_false_of_ne_nil {α : Type} (l : List α) (h : l ≠ []) :
    l.isEmpty = false := by
  cases l with
  | nil => exact absurd rfl h
  | cons a t => rfl

theorem not_hexLit_of_digits (a : List Char) (h : a.all Char.isDigit = true) :
    isHexLit a = false := by
  cases a with
  | nil => rfl
  | cons x t =>
    cases t with
    | nil => rfl
    | cons y r =>
      have hy : y.isDigit = true := by
        simp only [List.all_eq_true] at h
        exact h y (List.mem_cons_of_mem x (List.mem_cons_self y r))
      have h1 : (y == 'x') = false := beq_eq_false_iff_ne.mpr (digit_ne y 'x' hy (by decide))
      have h2 : (y == 'X') = false := beq_eq_false_iff_ne.mpr (digit_ne y 'X' hy (by decide))
      simp [isHexLit, h1, h2]

theorem not_octLit_of_digits (a : List Char) (h : a.all Char.isDigit = true) :
    isOctLit a = false := by
  cases a with
  | nil => rfl
  | cons x t =>
    cases t with
    | nil => rfl
    | cons y r =>
      have hy : y.isDigit = true := by
        simp only [List.all_eq_true] at h
        exact h y (List.mem_cons_of_mem x (List.mem_cons_self y r))
      have h1 : (y == 'o') = false := beq_eq_false_iff_ne.mpr (digit_ne y 'o' hy (by decide))
      have h2 : (y == 'O') = false := beq_eq_false_iff_ne.mpr (digit_ne y 'O' hy (by decide))
      simp [isOctLit, h1, h2]

theorem not_binLit_of_digits (a : List Char) (h : a.all Char.isDigit = true) :
    isBinLit a = false := by
  cases a with
  | nil => rfl
  | cons x t =>
    cases t with
    | nil => rfl
    | cons y r =>
      have hy : y.isDigit = true := by
        simp only [List.all_eq_true] at h
        exact h y (List.mem_cons_of_mem x (List.mem_cons_self y r))
      have h1 : (y == 'b') = false := beq_eq_false_iff_ne.mpr (digit_ne y 'b' hy (by decide))
      have h2 : (y == 'B') = false := beq_eq_false_iff_ne.mpr (digit_ne y 'B' hy (by decide))
      simp [isBinLit, h1, h2]

theorem splitSign_of_digits (a : List Char) (h1 : a ≠ [])
    (h2 : a.all Char.isDigit = true) : splitSign a = (false, a) := by
  cases a with
  | nil => exact absurd rfl h1
  | cons c cs =>
    have hc : c.isDigit = true := by
      simp only [List.all_eq_true] at h2
      exact h2 c (List.mem_cons_self c cs)
    show (if c = '+' then ((false : Bool), cs)
          else if c = '-' then (true, cs) else (false, c :: cs)) = (false, c :: cs)
    rw [if_neg (digit_ne c '+' hc (by decide)), if_neg (digit_ne c '-' hc (by decide))]

theorem jsDecimal_digits (a : List Char) (h1 : a ≠ [])
    (h2 : a.all Char.isDigit = true) : jsDecimal a = JSNum.int (digitsVal a) := by
  unfold jsDecimal
  rw [splitSign_of_digits a h1 h2]
  simp only [isEmpty_false_of_ne_nil a h1, Bool.not_false, Bool.true_and, h2, if_pos rfl]
  rfl

theorem jsToNumber_digits (a : List Char) (h1 : a ≠ [])
    (h2 : a.all Char.isDigit = true) :
    jsToNumber ⟨a⟩ = JSNum.int (digitsVal a) := by
  unfold jsToNumber
  have hd : (⟨a⟩ : String).data = a := rfl
  rw [hd, trimChars_digits a h2]
  rw [if_neg (by rw [isEmpty_false_of_ne_nil a h1]; exact Bool.false_ne_true),
      if_neg (by rw [not_hexLit_of_digits a h2]; exact Bool.false_ne_true),
      if_neg (by rw [not_octLit_of_digits a h2]; exact Bool.false_ne_true),
      if_neg (by rw [not_binLit_of_digits a h2]; exact Bool.false_ne_true)]
  exact jsDecimal_digits a h1 h2

/-! ## Helper lemmas: decodeRanking branches -/

theorem decodeRanking_rank (i : ℕ) (tok : String) : (decodeRanking i tok).rank = i + 1 := by
  unfold decodeRanking
  by_cases h1 : isTie tok = true
  · rw [if_pos h1]
  · rw [if_neg h1]
    by_cases h2 : tok = "-"
    · rw [if_pos h2]
    · rw [if_neg h2]

theorem decodeRanking_tie (i : ℕ) (tok : String) (a b : List Char)
    (hd : tok.data = a ++ '=' :: b) (ha : a ≠ []) (hb : b ≠ [])
    (hda : a.all Char.isDigit = true) (hdb : b.all Char.isDigit = true) :
    decodeRanking i tok =
      ⟨i + 1, [JSNum.int (digitsVal a), JSNum.int (digitsVal b)]⟩ := by
  have htie := isTie_of_decomp tok a b hd ha hb hda hdb
  have hna : '=' ∉ a := digits_not_mem a '=' hda (by decide)
  have hnb : '=' ∉ b := digits_not_mem b '=' hdb (by decide)
  unfold decodeRanking
  rw [if_pos htie]
  unfold jsSplit
  rw [hd, splitChar_append '=' a b hna, splitChar_of_no_sep '=' b hnb]
  simp only [List.map_cons, List.map_nil]
  rw [jsToNumber_digits a ha hda, jsToNumber_digits b hb hdb]

theorem decodeRanking_skip (i : ℕ) : decodeRanking i "-" = ⟨i + 1, []⟩ := by
  unfold decodeRanking
  rw [if_neg (by decide), if_pos rfl]

theorem decodeRanking_single (i : ℕ) (tok : String) (h1 : isTie tok = false)
    (h2 : tok ≠ "-") : decodeRanking i tok = ⟨i + 1, [jsToNumber tok]⟩ := by
  unfold decodeRanking
  rw [if_neg (by rw [h1]; exact Bool.false_ne_true), if_neg h2]

theorem decodeRanking_candidates_nil (i : ℕ) (tok : String)
    (h : (decodeRanking i tok).candidates = []) : tok = "-" := by
  by_cases h2 : tok = "-"
  · exact h2
  · exfalso
    by_cases h1 : isTie tok = true
    · obtain ⟨a, b, hsc, hdec, ha, hb, hda, hdb⟩ := isTie_decomp tok h1
      rw [decodeRanking_tie i tok a b hdec ha hb hda hdb] at h
      cases h
    · rw [decodeRanking_single i tok (Bool.not_eq_true _ ▸ h1) h2] at h
      cases h

theorem decodeRanking_candidates_two (i : ℕ) (tok : String)
    (h : 2 ≤ (decodeRanking i tok).candidates.length) :
    isTie tok = true ∧ '=' ∈ tok.data := by
  by_cases h1 : isTie tok = true
  · obtain ⟨a, b, hsc, hdec, ha, hb, hda, hdb⟩ := isTie_decomp tok h1
    refine ⟨h1, ?_⟩
    rw [hdec]
    exact List.mem_append_right a (List.mem_cons_self '=' b)
  · exfalso
    by_cases h2 : tok = "-"
    · rw [h2, decodeRanking_skip i] at h
      simp at h
    · rw [decodeRanking_single i tok (Bool.not_eq_true _ ▸ h1) h2] at h
      simp at h

theorem decodeRanking_candidates_le_two (i : ℕ) (tok : String) :
    (decodeRanking i tok).candidates.length ≤ 2 := by
  by_cases h1 : isTie tok = true
  · obtain ⟨a, b, hsc, hdec, ha, hb, hda, hdb⟩ := isTie_decomp tok h1
    rw [decodeRanking_tie i tok a b hdec ha hb hda hdb]
    simp
  · by_cases h2 : tok = "-"
    · rw [h2, decodeRanking_skip i]
      simp
    · rw [decodeRanking_single i tok (Bool.not_eq_true _ ▸ h1) h2]
      simp

/-! ## Helper lemmas: line cleaning -/

theorem stripComment_of_no_lt (l : List Char) (h : ∀ c ∈ l, lineTerm c = false) :
    stripComment l = l.takeWhile (fun c => c != '#') := by
  induction l with
  | nil => rfl
  | cons c cs ih =>
    have hlt : hasLT cs = false := by
      cases han : cs.any lineTerm
      · exact han
      · obtain ⟨x, hx, hxl⟩ := List.any_eq_true.mp han
        rw [h x (List.mem_cons_of_mem c hx)] at hxl
        cases hxl
    have hstep : stripComment (c :: cs) =
        if (c == '#' && !(hasLT cs)) = true then [] else c :: stripComment cs := rfl
    rw [hstep, hlt]
    by_cases hc : c = '#'
    · subst hc
      rw [if_pos (by decide)]
      rw [List.takeWhile_cons_of_neg (by decide)]
    · have hcb : (c == '#') = false := beq_eq_false_iff_ne.mpr hc
      rw [hcb]
      rw [if_neg (by decide)]
      rw [List.takeWhile_cons_of_pos (by simpa using hc)]
      rw [ih (fun x hx => h x (List.mem_cons_of_mem c hx))]

theorem hash_not_mem_takeWhile (l : List Char) :
    '#' ∉ l.takeWhile (fun c => c != '#') := by
  induction l with
  | nil => intro hm; cases hm
  | cons c cs ih =>
    by_cases hc : c = '#'
    · subst hc
      rw [List.takeWhile_cons_of_neg (by decide)]
      intro hm; cases hm
    · rw [List.takeWhile_cons_of_pos (by simpa using hc)]
      intro hm
      rcases List.mem_cons.mp hm with h1 | h1
      · exact hc h1.symm
      · exact ih h1

theorem cleanLine_no_quote (s : String) (c : Char) (hm : c ∈ (cleanLine s).data) :
    c ≠ '"' := by
  unfold cleanLine at hm
  have hm2 := mem_trimChars c _ hm
  unfold stripQuotes at hm2
  exact bne_iff_ne.mp (List.mem_filter.mp hm2).2

theorem cleanLine_no_hash (s : String) (h : ∀ c ∈ s.data, lineTerm c = false)
    (c : Char) (hm : c ∈ (cleanLine s).data) : c ≠ '#' := by
  intro he
  subst he
  unfold cleanLine at hm
  have hm2 := mem_trimChars _ _ hm
  have hm3 := (List.mem_filter.mp hm2).1
  rw [stripComment_of_no_lt s.data h] at hm3
  exact hash_not_mem_takeWhile s.data hm3

theorem mem_cleanedLines (text : String) (x : String) (hx : x ∈ cleanedLines text) :
    ∃ raw, raw ∈ jsSplit '\n' text ∧ x = cleanLine raw := by
  unfold cleanedLines normLines at hx
  obtain ⟨hmem, hne⟩ := List.mem_filter.mp hx
  obtain ⟨raw, hraw, heq⟩ := List.mem_map.mp hmem
  exact ⟨raw, hraw, heq.symm⟩

theorem normLines_drops_blank (ls1 ls2 : List String) (l : String)
    (h : cleanLine l = "") : normLines (ls1 ++ l :: ls2) = normLines (ls1 ++ ls2) := by
  unfold normLines
  rw [List.map_append, List.map_append, List.map_cons,
      List.filter_append, List.filter_append, List.filter_cons]
  rw [h]
  simp

/-! ## Helper lemmas: jsFindIndex -/

theorem jsFindIndex_of_mem {α : Type} (p : α → Bool) (l : List α) (x : α)
    (hx : x ∈ l) (hp : p x = true) : ∃ i, jsFindIndex p l = some i := by
  induction l with
  | nil => cases hx
  | cons a t ih =>
    have hstep : jsFindIndex p (a :: t) =
        if p a = true then some 0 else (jsFindIndex p t).map (· + 1) := rfl
    by_cases ha : p a = true
    · exact ⟨0, by rw [hstep, if_pos ha]⟩
    · rcases List.mem_cons.mp hx with h1 | h1
      · subst h1; exact absurd hp ha
      · obtain ⟨i, hi⟩ := ih h1
        exact ⟨i + 1, by rw [hstep, if_neg ha, hi]; rfl⟩

theorem jsFindIndex_some {α : Type} (p : α → Bool) (l : List α) (i : ℕ) (d : α)
    (h : jsFindIndex p l = some i) :
    i < l.length ∧ p (l.getD i d) = true ∧ ∀ j, j < i → p (l.getD j d) = false := by
  induction l generalizing i with
  | nil => cases h
  | cons a t ih =>
    have hstep : jsFindIndex p (a :: t) =
        if p a = true then some 0 else (jsFindIndex p t).map (· + 1) := rfl
    rw [hstep] at h
    by_cases ha : p a = true
    · rw [if_pos ha] at h
      obtain rfl : (0 : ℕ) = i := Option.some.inj h
      exact ⟨Nat.succ_pos _, ha, fun j hj => absurd hj (Nat.not_lt_zero j)⟩
    · rw [if_neg ha] at h
      cases hft : jsFindIndex p t with
      | none => rw [hft] at h; cases h
      | some k =>
        rw [hft] at h
        obtain rfl : k + 1 = i := Option.some.inj h
        obtain ⟨hlen, hpk, hall⟩ := ih k hft
        refine ⟨Nat.succ_lt_succ hlen, by rw [List.getD_cons_succ]; exact hpk, ?_⟩
        intro j hj
        cases j with
        | zero =>
          rw [List.getD_cons_zero]
          exact Bool.not_eq_true (p a) ▸ ha
        | succ m =>
          rw [List.getD_cons_succ]
          exact hall m (Nat.lt_of_succ_lt_succ hj)

/-! ## Helper lemmas: segmentation equations and subsets -/

theorem postWithdrawal_cons (l : String) (rest : List String) :
    postWithdrawal (l :: rest) = if wTest l.data then rest else l :: rest := rfl

theorem withdrawnOf_cons (l : String) (rest : List String) :
    withdrawnOf (l :: rest) =
      if wTest l.data then
        ((jsSplit ' ' l).filter (fun c => jsTrimStr c != "")).map
          (fun c => jsToNumber ⟨removeFirstDash (jsTrimStr c).data⟩)
      else [] := rfl

theorem ballotLinesOf_eq_of_idx (rest : List String) (i : ℕ)
    (h : endOfBallotsIdx rest = some i) : ballotLinesOf rest = rest.take i := by
  unfold ballotLinesOf
  rw [h]

theorem ballotLinesOf_eq_of_none (rest : List String)
    (h : endOfBallotsIdx rest = none) : ballotLinesOf rest = rest.dropLast := by
  unfold ballotLinesOf
  rw [h]

theorem candidateLinesOf_eq_of_idx (rest : List String) (i : ℕ)
    (h : endOfBallotsIdx rest = some i) :
    candidateLinesOf rest = (rest.take (rest.length - 1)).drop (i + 1) := by
  unfold candidateLinesOf
  rw [h]

theorem candidateLinesOf_eq_of_none (rest : List String)
    (h : endOfBallotsIdx rest = none) :
    candidateLinesOf rest = rest.take (rest.length - 1) := by
  unfold candidateLinesOf
  rw [h]

theorem postWithdrawal_subset (o : List String) (x : String)
    (hx : x ∈ postWithdrawal o) : x ∈ o := by
  cases o with
  | nil => cases hx
  | cons l rest =>
    rw [postWithdrawal_cons] at hx
    by_cases hw : wTest l.data = true
    · rw [if_pos hw] at hx
      exact List.mem_cons_of_mem l hx
    · rw [if_neg (by rw [Bool.not_eq_true] at hw; rw [hw]; exact Bool.false_ne_true)] at hx
      exact hx

theorem candidateLinesOf_subset (rest : List String) (x : String)
    (hx : x ∈ candidateLinesOf rest) : x ∈ rest := by
  cases h : endOfBallotsIdx rest with
  | some i =>
    rw [candidateLinesOf_eq_of_idx rest i h] at hx
    exact List.take_subset _ _ (List.drop_subset _ _ hx)
  | none =>
    rw [candidateLinesOf_eq_of_none rest h] at hx
    exact List.take_subset _ _ hx

theorem take_pred_drop (l : List String) (i : ℕ) :
    (l.take (l.length - 1)).drop (i + 1) = (l.drop (i + 1)).dropLast := by
  rw [List.drop_take, List.dropLast_eq_take, List.length_drop]
  congr 1
  omega

/-! ## Claim theorems -/

/-- Claim C10: for any input whose normalization yields zero lines (for
example, text consisting only of blank lines and comments), parse does not
return an ElectionResult: it fails (modelled as none, the thrown
TypeError) rather than producing a record with default fields. -/
theorem C10_empty_normalization_fails (text : String)
    (h : cleanedLines text = []) : parse text = none := by
  unfold parse
  rw [h]
  rfl

/-- Witness for C10 at a concrete comment-and-blank-only input. -/
theorem C10_witness : cleanedLines ("# just a comment\n \n") = [] ∧
    parse ("# just a comment\n \n") = none :=
  ⟨by decide, C10_empty_normalization_fails ("# just a comment\n \n") (by decide)⟩

/-- Claim C1, code behavior at a failing input: the input below has no
cleaned line equal to the string 0, yet parse does not fail; it returns a
garbage result in which the candidate-name line Alice was decoded as a
ballot (weight NaN).  The claim says parse must fail with a structural
error here; the code disagrees, which the spec itself flags as the
original treating not-found as index -1 and silently producing a garbage
ballot block. -/
theorem C1_missing_marker_behavior :
    ("0" ∉ cleanedLines ("4 2\n1 1 0\nAlice\nTitle")) ∧
    (parse ("4 2\n1 1 0\nAlice\nTitle")).map
        (fun r => (r.ballots.map (fun b => b.weight), r.electionName))
      = some ([JSNum.int 1, JSNum.nan], some ("Title")) := by
  decide

/-- Claim C6, code behavior at a failing input: the ballot line 1 2 9 has
final token 9, not the terminator 0, yet parse succeeds and silently
discards the 9 (the ballot keeps weight 1 and the single ranking of
candidate 2).  The claim says parse must fail with a token-format error
here; the spec itself marks the missing validation as a correctness gap in
the code. -/
theorem C6_terminator_not_validated :
    (parse ("1 1\n1 2 9\n0\nA\nT")).map
        (fun r => r.ballots.map (fun b => (b.weight, b.rankings)))
      = some [(JSNum.int 1, [⟨1, [JSNum.int 2]⟩])] := by
  decide

/-! ## Helper lemmas: the shape of a successful parse -/

theorem parseFromCleaned_cons (f : String) (o : List String) :
    parseFromCleaned (f :: o) = some
      { withdrawnCandidates := withdrawnOf o
        numberOfCandidates := ((jsSplit ' ' f).map jsToNumber).getD 0 JSNum.nan
        numberOfSeats := ((jsSplit ' ' f).map jsToNumber).get? 1
        ballots := (ballotLinesOf (postWithdrawal o)).map parseBallotLine
        candidates := mapIdxFrom (fun index line => ⟨line, index + 1⟩) 0
          (candidateLinesOf (postWithdrawal o))
        electionName := (postWithdrawal o).getLast? } := rfl

theorem parse_result_eq (text f : String) (o : List String) (r : ElectionResult)
    (hc : cleanedLines text = f :: o) (h : parse text = some r) :
    r = { withdrawnCandidates := withdrawnOf o
          numberOfCandidates := ((jsSplit ' ' f).map jsToNumber).getD 0 JSNum.nan
          numberOfSeats := ((jsSplit ' ' f).map jsToNumber).get? 1
          ballots := (ballotLinesOf (postWithdrawal o)).map parseBallotLine
          candidates := mapIdxFrom (fun index line => ⟨line, index + 1⟩) 0
            (candidateLinesOf (postWithdrawal o))
          electionName := (postWithdrawal o).getLast? } := by
  unfold parse at h
  rw [hc, parseFromCleaned_cons] at h
  exact (Option.some.inj h).symm

theorem mem_splitChar_not_sep (sep : Char) (l p : List Char)
    (hp : p ∈ splitChar sep l) : sep ∉ p := by
  induction l generalizing p with
  | nil =>
    simp [splitChar] at hp
    subst hp
    intro hm
    cases hm
  | cons d ds ih =>
    by_cases hd : d = sep
    · rw [hd, splitChar_cons_eq sep ds] at hp
      rcases List.mem_cons.mp hp with h1 | h1
      · subst h1; intro hm; cases hm
      · exact ih p h1
    · cases hs : splitChar sep ds with
      | nil => exact absurd hs (splitChar_ne_nil sep ds)
      | cons t ts =>
        rw [splitChar_cons_ne sep d ds hd t ts hs] at hp
        rcases List.mem_cons.mp hp with h1 | h1
        · subst h1
          intro hm
          rcases List.mem_cons.mp hm with h2 | h2
          · exact hd h2.symm
          · have ht : t ∈ splitChar sep ds := by
              rw [hs]; exact List.mem_cons_self t ts
            exact ih t ht h2
        · have hpm : p ∈ splitChar sep ds := by
            rw [hs]; exact List.mem_cons_of_mem t h1
          exact ih p hpm

/-- Every string field of a successful parse (the election name and every
candidate name) is one of the cleaned lines of the input. -/
theorem parse_string_fields_mem (text : String) (r : ElectionResult)
    (h : parse text = some r) :
    (∀ s, r.electionName = some s → s ∈ cleanedLines text) ∧
    (∀ cand ∈ r.candidates, cand.name ∈ cleanedLines text) := by
  cases hc : cleanedLines text with
  | nil => unfold parse at h; rw [hc] at h; cases h
  | cons f o =>
    have hr := parse_result_eq text f o r hc h
    constructor
    · intro s hs
      rw [hr] at hs
      have hs2 : (postWithdrawal o).getLast? = some s := hs
      have hmem := List.mem_of_mem_getLast? hs2
      exact List.mem_cons_of_mem f (postWithdrawal_subset o s hmem)
    · intro cand hcand
      rw [hr] at hcand
      have hcand2 : cand ∈ mapIdxFrom (fun index line => (⟨line, index + 1⟩ : Candidate)) 0
          (candidateLinesOf (postWithdrawal o)) := hcand
      obtain ⟨i, a, ha, hceq⟩ := mem_mapIdxFrom _ 0 _ cand hcand2
      have hname : cand.name = a := by rw [hceq]
      rw [hname]
      exact List.mem_cons_of_mem f
        (postWithdrawal_subset o a (candidateLinesOf_subset (postWithdrawal o) a ha))

/-- Every ballot of a successful parse is the decoding of some line. -/
theorem parse_ballots_mem (text : String) (r : ElectionResult)
    (h : parse text = some r) (b : Ballot) (hb : b ∈ r.ballots) :
    ∃ line : String, b = parseBallotLine line := by
  cases hc : cleanedLines text with
  | nil => unfold parse at h; rw [hc] at h; cases h
  | cons f o =>
    have hr := parse_result_eq text f o r hc h
    rw [hr] at hb
    have hb2 : b ∈ (ballotLinesOf (postWithdrawal o)).map parseBallotLine := hb
    obtain ⟨line, hline, hbeq⟩ := List.mem_map.mp hb2
    exact ⟨line, hbeq.symm⟩

/-- Claim C9: every Ranking produced by the parser has at most two
candidates — the tie pattern captures exactly two equal-sign-joined digit
runs, a skip has none and any other token exactly one, so no token decodes
into a three-or-more-way tie. -/
theorem C9_at_most_two_candidates (text : String) (r : ElectionResult)
    (h : parse text = some r) (b : Ballot) (hb : b ∈ r.ballots)
    (rk : Ranking) (hrk : rk ∈ b.rankings) : rk.candidates.length ≤ 2 := by
  obtain ⟨line, hbl⟩ := parse_ballots_mem text r h b hb
  rw [hbl] at hrk
  have hrk2 : rk ∈ processRankings (rankToks line) := hrk
  obtain ⟨i, tok, htok, hrkeq⟩ := mem_processRankings (rankToks line) rk hrk2
  rw [hrkeq]
  exact decodeRanking_candidates_le_two i tok

/-- Witness for C9: a tie ranking taken from a concrete parse result has
at most two candidates. -/
theorem C9_witness :
    (Ranking.mk 1 [JSNum.int 2, JSNum.int 3]).candidates.length ≤ 2 :=
  C9_at_most_two_candidates ("1 1\n1 2=3 1 0\n0\nA\nT")
    ⟨[], JSNum.int 1, some (JSNum.int 1),
     [⟨JSNum.int 1, [⟨1, [JSNum.int 2, JSNum.int 3]⟩, ⟨2, [JSNum.int 1]⟩]⟩],
     [⟨"A", 1⟩], some ("T")⟩
    (by decide)
    ⟨JSNum.int 1, [⟨1, [JSNum.int 2, JSNum.int 3]⟩, ⟨2, [JSNum.int 1]⟩]⟩
    (by decide)
    ⟨1, [JSNum.int 2, JSNum.int 3]⟩
    (by decide)

/-- Claim C4: round-trip.  In any parse result every ballot is the
decoding of some line, and position by position: a Ranking with an empty
candidate list arises only from the skip token (the lone minus sign), and
a Ranking with two or more candidates arises only from a token matching
the tie pattern, which contains an equal sign. -/
theorem C4_roundtrip (text : String) (r : ElectionResult)
    (h : parse text = some r) (b : Ballot) (hb : b ∈ r.ballots) :
    ∃ line : String, b = parseBallotLine line ∧
      ∀ i, i < b.rankings.length →
        (((b.rankings.getD i ⟨0, []⟩).candidates = [] →
            (rankToks line).getD i ("") = ("-")) ∧
         (2 ≤ (b.rankings.getD i ⟨0, []⟩).candidates.length →
            isTie ((rankToks line).getD i ("")) = true ∧
            '=' ∈ ((rankToks line).getD i ("")).data)) := by
  obtain ⟨line, hbl⟩ := parse_ballots_mem text r h b hb
  refine ⟨line, hbl, ?_⟩
  intro i hi
  have hlen : i < (rankToks line).length := by
    rw [hbl] at hi
    have : (parseBallotLine line).rankings.length = (rankToks line).length :=
      processRankings_length (rankToks line)
    rw [this] at hi
    exact hi
  have hget : b.rankings.getD i ⟨0, []⟩ =
      decodeRanking i ((rankToks line).getD i ("")) := by
    rw [hbl]
    exact processRankings_getD (rankToks line) i hlen
  constructor
  · intro hnil
    rw [hget] at hnil
    exact decodeRanking_candidates_nil i _ hnil
  · intro h2
    rw [hget] at h2
    exact decodeRanking_candidates_two i _ h2

/-- Witness for C4 at a concrete parse with a skip and a tie. -/
theorem C4_witness :
    ∃ line : String,
      (Ballot.mk (JSNum.int 1)
        [⟨1, []⟩, ⟨2, [JSNum.int 2, JSNum.int 3]⟩]) = parseBallotLine line ∧
      ∀ i, i < (Ballot.mk (JSNum.int 1)
          [⟨1, []⟩, ⟨2, [JSNum.int 2, JSNum.int 3]⟩]).rankings.length →
        ((((Ballot.mk (JSNum.int 1)
            [⟨1, []⟩, ⟨2, [JSNum.int 2, JSNum.int 3]⟩]).rankings.getD i
              ⟨0, []⟩).candidates = [] →
            (rankToks line).getD i ("") = ("-")) ∧
         (2 ≤ ((Ballot.mk (JSNum.int 1)
            [⟨1, []⟩, ⟨2, [JSNum.int 2, JSNum.int 3]⟩]).rankings.getD i
              ⟨0, []⟩).candidates.length →
            isTie ((rankToks line).getD i ("")) = true ∧
            '=' ∈ ((rankToks line).getD i ("")).data)) :=
  C4_roundtrip ("1 1\n1 - 2=3 0\n0\nA\nT")
    ⟨[], JSNum.int 1, some (JSNum.int 1),
     [⟨JSNum.int 1, [⟨1, []⟩, ⟨2, [JSNum.int 2, JSNum.int 3]⟩]⟩],
     [⟨"A", 1⟩], some ("T")⟩
    (by decide)
    ⟨JSNum.int 1, [⟨1, []⟩, ⟨2, [JSNum.int 2, JSNum.int 3]⟩]⟩
    (by decide)

/-- Claim C3: per-token decoding of a ballot line, in priority order.  For
the ranking tokens (weight and terminator excluded): a token of the form
digits, equal sign, digits yields a tie whose candidates are the two
numbers in written order; the token that is exactly the minus sign yields
an empty candidate list; any other token yields the singleton of its
Number conversion. -/
theorem C3_token_decoding (line : String) (i : ℕ)
    (h : i < (rankToks line).length) :
    (∀ a b : List Char,
        ((rankToks line).getD i ("")).data = a ++ '=' :: b → a ≠ [] → b ≠ [] →
        a.all Char.isDigit = true → b.all Char.isDigit = true →
        (processRankings (rankToks line)).getD i ⟨0, []⟩ =
          ⟨i + 1, [JSNum.int (digitsVal a), JSNum.int (digitsVal b)]⟩) ∧
    ((rankToks line).getD i ("") = ("-") →
        (processRankings (rankToks line)).getD i ⟨0, []⟩ = ⟨i + 1, []⟩) ∧
    (isTie ((rankToks line).getD i ("")) = false →
        (rankToks line).getD i ("") ≠ ("-") →
        (processRankings (rankToks line)).getD i ⟨0, []⟩ =
          ⟨i + 1, [jsToNumber ((rankToks line).getD i (""))]⟩) := by
  have hget := processRankings_getD (rankToks line) i h
  refine ⟨?_, ?_, ?_⟩
  · intro a b hd ha hb hda hdb
    rw [hget]
    exact decodeRanking_tie i _ a b hd ha hb hda hdb
  · intro hskip
    rw [hget, hskip]
    exact decodeRanking_skip i
  · intro h1 h2
    rw [hget]
    exact decodeRanking_single i _ h1 h2

/-- Witness for C3 on the ballot line with a tie, a skip and a single
ranking. -/
theorem C3_witness :
    (processRankings (rankToks ("1 3=2 - 5 0"))).getD 0 ⟨0, []⟩ =
      ⟨1, [JSNum.int (digitsVal ['3']), JSNum.int (digitsVal ['2'])]⟩ ∧
    (processRankings (rankToks ("1 3=2 - 5 0"))).getD 1 ⟨0, []⟩ = ⟨2, []⟩ ∧
    (processRankings (rankToks ("1 3=2 - 5 0"))).getD 2 ⟨0, []⟩ =
      ⟨3, [jsToNumber ("5")]⟩ :=
  ⟨(C3_token_decoding ("1 3=2 - 5 0") 0 (by decide)).1 ['3'] ['2'] (by decide)
      (by decide) (by decide) (by decide) (by decide),
   (C3_token_decoding ("1 3=2 - 5 0") 1 (by decide)).2.1 (by decide),
   (C3_token_decoding ("1 3=2 - 5 0") 2 (by decide)).2.2 (by decide) (by decide)⟩

/-- Claim C7 counterexample: for the ballot line with two consecutive
spaces the parser produces two Ranking entries (the empty piece between
the spaces decodes as a phantom ranking of candidate 0 because Number of
the empty string is 0), while the line has exactly one whitespace-
separated ranking token (weight and terminator excluded).  The claimed
equality of the two counts is therefore false at this input. -/
theorem C7_counterexample :
    ¬ ((parse ("1 1\n1  2 0\n0\nA\nT")).map
          (fun r => r.ballots.map (fun b => b.rankings.length))
        = some [((lineTokens ("1  2 0")).tail.dropLast).length]) := by
  decide

/-- Claim C7, amended: the Ranking-entry count of a ballot line equals the
number of pieces produced by splitting the line on single spaces minus two
(the weight piece and the final piece); when every piece is nonempty (the
tokens are separated by single spaces) this equals the number of
whitespace-separated ranking tokens of the line; and the rank fields are
exactly 1..k in order, every slot (skips included) producing exactly one
entry. -/
theorem C7_amended (line : String) :
    (parseBallotLine line).rankings.length = (jsSplit ' ' line).length - 2 ∧
    ((∀ t ∈ jsSplit ' ' line, t ≠ ("")) →
      (parseBallotLine line).rankings.length =
        ((lineTokens line).tail.dropLast).length) ∧
    (∀ i, i < (parseBallotLine line).rankings.length →
      ((parseBallotLine line).rankings.getD i ⟨0, []⟩).rank = i + 1) := by
  have hlen : (parseBallotLine line).rankings.length = (rankToks line).length :=
    processRankings_length (rankToks line)
  have hlen2 : (rankToks line).length = (jsSplit ' ' line).length - 2 := by
    unfold rankToks ballotToks
    rw [List.length_dropLast, List.length_tail, List.length_map]
    omega
  refine ⟨by rw [hlen, hlen2], ?_, ?_⟩
  · intro hne
    have hfilter : lineTokens line = jsSplit ' ' line := by
      unfold lineTokens
      exact List.filter_eq_self.mpr (fun t ht => bne_iff_ne.mpr (hne t ht))
    rw [hfilter, hlen, hlen2, List.length_dropLast, List.length_tail]
    omega
  · intro i hi
    rw [hlen] at hi
    have hget : (parseBallotLine line).rankings.getD i ⟨0, []⟩ =
        decodeRanking i ((rankToks line).getD i ("")) :=
      processRankings_getD (rankToks line) i hi
    rw [hget]
    exact decodeRanking_rank i _

/-- Witness for C7 on a single-space-separated ballot line. -/
theorem C7_witness :
    (parseBallotLine ("1 2 - 3 0")).rankings.length =
      ((lineTokens ("1 2 - 3 0")).tail.dropLast).length ∧
    ((parseBallotLine ("1 2 - 3 0")).rankings.getD 1 ⟨0, []⟩).rank = 2 :=
  ⟨(C7_amended ("1 2 - 3 0")).2.1 (by decide),
   (C7_amended ("1 2 - 3 0")).2.2 1 (by decide)⟩

/-- Claim C5 counterexample: the line -1-3 matches the withdrawal regex
(the pattern does not require its groups to be space separated), so the
parser consumes it, and the single space-split token -1-3 becomes
Number of 1-3, which is NaN: withdrawnCandidates is [NaN], neither the
empty list nor a list of positive integers, contradicting both halves of
the claim. -/
theorem C5_counterexample :
    (parse ("2 1\n-1-3\n1 1 0\n0\nA\nB\nT")).map
        (fun r => r.withdrawnCandidates) = some [JSNum.nan] ∧
    ¬ (∃ n : ℤ, 0 < n ∧ JSNum.nan = JSNum.int n) := by
  refine ⟨by decide, ?_⟩
  rintro ⟨n, hn, h⟩
  cases h

/-- Claim C5, amended: when the line after the header matches the
withdrawal pattern it is consumed, and if moreover each of its space-split
tokens is a minus sign followed by digits with positive value (a genuine
space-separated list of negative integers) then withdrawnCandidates is the
list of those numbers with the sign stripped, every entry positive; when
the pattern does not match, withdrawnCandidates is empty and the line is
left in place as the first ballot line.  (The pattern also accepts lines
whose groups are not space separated, such as -1-3; those are consumed but
produce NaN entries, which is what the counterexample exhibits.) -/
theorem C5_amended (l : String) (rest : List String) :
    ((wTest l.data = true →
      (∀ t ∈ jsSplit ' ' l, ∃ ds : List Char, ds ≠ [] ∧
          ds.all Char.isDigit = true ∧ 0 < digitsVal ds ∧ t.data = '-' :: ds) →
      postWithdrawal (l :: rest) = rest ∧
      withdrawnOf (l :: rest) =
        (jsSplit ' ' l).map (fun t => JSNum.int (digitsVal t.data.tail)) ∧
      (∀ x ∈ withdrawnOf (l :: rest), ∃ n : ℤ, 0 < n ∧ x = JSNum.int n)) ∧
     (wTest l.data = false →
      withdrawnOf (l :: rest) = [] ∧ postWithdrawal (l :: rest) = l :: rest)) := by
  constructor
  · intro hw hshape
    have htrim : ∀ t ∈ jsSplit ' ' l, jsTrimStr t = t := by
      intro t ht
      obtain ⟨ds, hds, hdig, hpos, hdata⟩ := hshape t ht
      have hall : ∀ c ∈ t.data, jsWS c = false := by
        intro c hc
        rw [hdata] at hc
        rcases List.mem_cons.mp hc with h1 | h1
        · rw [h1]; decide
        · exact digit_not_ws c (List.all_eq_true.mp hdig c h1)
      show (⟨trimChars t.data⟩ : String) = t
      rw [trimChars_eq_self t.data hall]
    have hkeep : (jsSplit ' ' l).filter (fun c => jsTrimStr c != "") = jsSplit ' ' l := by
      apply List.filter_eq_self.mpr
      intro t ht
      obtain ⟨ds, hds, hdig, hpos, hdata⟩ := hshape t ht
      rw [htrim t ht]
      apply bne_iff_ne.mpr
      intro he
      rw [he] at hdata
      cases hdata
    have hmapeq : (jsSplit ' ' l).map
          (fun c => jsToNumber ⟨removeFirstDash (jsTrimStr c).data⟩) =
        (jsSplit ' ' l).map (fun t => JSNum.int (digitsVal t.data.tail)) := by
      apply List.map_congr_left
      intro t ht
      obtain ⟨ds, hds, hdig, hpos, hdata⟩ := hshape t ht
      rw [htrim t ht, hdata]
      have hrm : removeFirstDash ('-' :: ds) = ds := by
        show (if ('-' : Char) = '-' then ds else '-' :: removeFirstDash ds) = ds
        rw [if_pos rfl]
      rw [hrm]
      show jsToNumber ⟨ds⟩ = JSNum.int (digitsVal ds)
      exact jsToNumber_digits ds hds hdig
    refine ⟨by rw [postWithdrawal_cons, if_pos hw], ?_, ?_⟩
    · rw [withdrawnOf_cons, if_pos hw, hkeep, hmapeq]
    · intro x hx
      rw [withdrawnOf_cons, if_pos hw, hkeep, hmapeq] at hx
      obtain ⟨t, ht, hxeq⟩ := List.mem_map.mp hx
      obtain ⟨ds, hds, hdig, hpos, hdata⟩ := hshape t ht
      refine ⟨(digitsVal ds : ℤ), by exact_mod_cast hpos, ?_⟩
      rw [← hxeq, hdata]
      rfl
  · intro hw
    have hwne : ¬ wTest l.data = true := by rw [hw]; exact Bool.false_ne_true
    exact ⟨by rw [withdrawnOf_cons, if_neg hwne],
           by rw [postWithdrawal_cons, if_neg hwne]⟩

/-- Witness for C5: a genuine withdrawal line -2 is consumed with the
positive entry 2, and a ballot-like line 1 1 0 is not consumed. -/
theorem C5_witness :
    (postWithdrawal (("-2") :: ("1 1 0") :: []) = ("1 1 0") :: [] ∧
     withdrawnOf (("-2") :: ("1 1 0") :: []) =
       (jsSplit ' ' ("-2")).map (fun t => JSNum.int (digitsVal t.data.tail)) ∧
     (∀ x ∈ withdrawnOf (("-2") :: ("1 1 0") :: []),
        ∃ n : ℤ, 0 < n ∧ x = JSNum.int n)) ∧
    (withdrawnOf (("1 1 0") :: []) = [] ∧
     postWithdrawal (("1 1 0") :: []) = ("1 1 0") :: []) :=
  ⟨(C5_amended ("-2") (("1 1 0") :: [])).1 (by decide)
      (fun t ht => by
        have hteq : t = ("-2") := by
          have hsp : jsSplit ' ' ("-2") = ("-2") :: [] := by decide
          rw [hsp] at ht
          simpa using ht
        subst hteq
        exact ⟨['2'], by decide, by decide, by decide, rfl⟩),
   (C5_amended ("1 1 0") ([])).2 (by decide)⟩

/-- Claim C2: when at least one line remaining after header and withdrawal
extraction is exactly the string 0, parse succeeds, the first such line
(at index i, with no earlier line equal to 0) is the end-of-ballots
marker, the ballots are decoded exactly from the lines strictly before it,
the candidates are exactly the lines strictly after it excluding the final
line, each numbered 1..N by position, and electionName is the final line
of the sequence. -/
theorem C2_segmentation (text first : String) (others : List String)
    (hclean : cleanedLines text = first :: others)
    (hmem : ("0") ∈ postWithdrawal others) :
    ∃ (r : ElectionResult) (i : ℕ),
      parse text = some r ∧
      i < (postWithdrawal others).length ∧
      (postWithdrawal others).getD i ("") = ("0") ∧
      (∀ j, j < i → (postWithdrawal others).getD j ("") ≠ ("0")) ∧
      r.ballots = ((postWithdrawal others).take i).map parseBallotLine ∧
      r.candidates = mapIdxFrom (fun index line => ⟨line, index + 1⟩) 0
        (((postWithdrawal others).drop (i + 1)).dropLast) ∧
      (∃ lastLine, (postWithdrawal others).getLast? = some lastLine ∧
        r.electionName = some lastLine) := by
  obtain ⟨i, hidx⟩ := jsFindIndex_of_mem (fun x => x == ("0"))
    (postWithdrawal others) ("0") hmem (by simp)
  obtain ⟨hlen, hp, hall⟩ := jsFindIndex_some (fun x => x == ("0"))
    (postWithdrawal others) i ("") hidx
  have hEOB : endOfBallotsIdx (postWithdrawal others) = some i := hidx
  have hne : postWithdrawal others ≠ [] := by
    intro hz
    rw [hz] at hmem
    cases hmem
  obtain ⟨lastLine, hlast⟩ : ∃ a, (postWithdrawal others).getLast? = some a := by
    cases hL : (postWithdrawal others).getLast? with
    | some a => exact ⟨a, rfl⟩
    | none => exact absurd (List.getLast?_eq_none_iff.mp hL) hne
  refine ⟨{ withdrawnCandidates := withdrawnOf others
            numberOfCandidates := ((jsSplit ' ' first).map jsToNumber).getD 0 JSNum.nan
            numberOfSeats := ((jsSplit ' ' first).map jsToNumber).get? 1
            ballots := (ballotLinesOf (postWithdrawal others)).map parseBallotLine
            candidates := mapIdxFrom (fun index line => ⟨line, index + 1⟩) 0
              (candidateLinesOf (postWithdrawal others))
            electionName := (postWithdrawal others).getLast? },
          i, ?_, hlen, ?_, ?_, ?_, ?_, lastLine, hlast, ?_⟩
  · unfold parse
    rw [hclean]
    exact parseFromCleaned_cons first others
  · exact beq_iff_eq.mp hp
  · intro j hj he
    have hpj := hall j hj
    rw [he] at hpj
    simp at hpj
  · show (ballotLinesOf (postWithdrawal others)).map parseBallotLine = _
    rw [ballotLinesOf_eq_of_idx _ i hEOB]
  · show mapIdxFrom (fun index line => (⟨line, index + 1⟩ : Candidate)) 0
        (candidateLinesOf (postWithdrawal others)) = _
    rw [candidateLinesOf_eq_of_idx _ i hEOB, take_pred_drop]
  · exact hlast

/-- Witness for C2 at a concrete input with one ballot line, two candidate
names and a title. -/
theorem C2_witness :
    ∃ (r : ElectionResult) (i : ℕ),
      parse ("4 2\n1 0\n0\nA\nB\nT") = some r ∧
      i < (postWithdrawal (("1 0") :: ("0") :: ("A") :: ("B") :: ("T") :: [])).length ∧
      (postWithdrawal (("1 0") :: ("0") :: ("A") :: ("B") :: ("T") :: [])).getD i ("")
        = ("0") ∧
      (∀ j, j < i →
        (postWithdrawal (("1 0") :: ("0") :: ("A") :: ("B") :: ("T") :: [])).getD j ("")
          ≠ ("0")) ∧
      r.ballots = ((postWithdrawal
          (("1 0") :: ("0") :: ("A") :: ("B") :: ("T") :: [])).take i).map
            parseBallotLine ∧
      r.candidates = mapIdxFrom (fun index line => ⟨line, index + 1⟩) 0
        (((postWithdrawal
            (("1 0") :: ("0") :: ("A") :: ("B") :: ("T") :: [])).drop (i + 1)).dropLast) ∧
      (∃ lastLine,
        (postWithdrawal
          (("1 0") :: ("0") :: ("A") :: ("B") :: ("T") :: [])).getLast? = some lastLine ∧
        r.electionName = some lastLine) :=
  C2_segmentation ("4 2\n1 0\n0\nA\nB\nT") ("4 2")
    (("1 0") :: ("0") :: ("A") :: ("B") :: ("T") :: []) (by decide) (by decide)

/-- Claim C8 counterexample: in the input below the title source line
contains a carriage return; the comment regex (dot does not match line
terminators, dollar anchors only the end) therefore matches at the second
hash, not the first, and the parsed electionName is T#x: it retains the
hash and the character x that followed the first hash of its source line,
where the cleaning described by the claim would produce just T. -/
theorem C8_counterexample :
    (parse ("1 1\n1 0\n0\nA\nT#x\r#y")).map (fun r => r.electionName)
      = some (some ("T#x")) ∧
    cleanLine ("T#x\r#y") = ("T#x") ∧
    specCleanLine ("T#x\r#y") = ("T") ∧
    '#' ∈ ("T#x").data ∧ 'x' ∈ ("T#x").data := by
  decide

/-- Claim C8, amended: no string field of a parse result ever contains a
double-quote character; when no line of the input embeds a line terminator
other than the newline it is split on (so the comment regex behaves as the
spec describes), no string field contains a hash character or anything
after it; and a line that cleans to empty contributes nothing: inserting
it anywhere leaves the parse of the cleaned lines unchanged. -/
theorem C8_amended :
    (∀ text r, parse text = some r →
      (∀ s, r.electionName = some s → ∀ c ∈ s.data, c ≠ '"') ∧
      (∀ cand ∈ r.candidates, ∀ c ∈ cand.name.data, c ≠ '"')) ∧
    (∀ text r, (∀ c ∈ text.data, c = '\n' ∨ lineTerm c = false) →
      parse text = some r →
      (∀ s, r.electionName = some s → ∀ c ∈ s.data, c ≠ '#') ∧
      (∀ cand ∈ r.candidates, ∀ c ∈ cand.name.data, c ≠ '#')) ∧
    (∀ ls1 ls2 l, cleanLine l = ("") →
      parseFromCleaned (normLines (ls1 ++ l :: ls2)) =
        parseFromCleaned (normLines (ls1 ++ ls2))) := by
  refine ⟨?_, ?_, ?_⟩
  · intro text r h
    obtain ⟨helec, hcand⟩ := parse_string_fields_mem text r h
    constructor
    · intro s hs c hc
      obtain ⟨raw, hraw, hseq⟩ := mem_cleanedLines text s (helec s hs)
      rw [hseq] at hc
      exact cleanLine_no_quote raw c hc
    · intro cand hcm c hc
      obtain ⟨raw, hraw, hseq⟩ := mem_cleanedLines text cand.name (hcand cand hcm)
      rw [hseq] at hc
      exact cleanLine_no_quote raw c hc
  · intro text r hLT h
    have hrawlt : ∀ raw ∈ jsSplit '\n' text, ∀ c ∈ raw.data, lineTerm c = false := by
      intro raw hraw c hc
      unfold jsSplit at hraw
      obtain ⟨p, hp, hpe⟩ := List.mem_map.mp hraw
      have hdata : raw.data = p := by rw [← hpe]
      rw [hdata] at hc
      have hmem := mem_splitChar_subset '\n' text.data p c hp hc
      rcases hLT c hmem with h1 | h1
      · exact absurd (h1 ▸ hc) (mem_splitChar_not_sep '\n' text.data p hp)
      · exact h1
    obtain ⟨helec, hcand⟩ := parse_string_fields_mem text r h
    constructor
    · intro s hs c hc
      obtain ⟨raw, hraw, hseq⟩ := mem_cleanedLines text s (helec s hs)
      rw [hseq] at hc
      exact cleanLine_no_hash raw (hrawlt raw hraw) c hc
    · intro cand hcm c hc
      obtain ⟨raw, hraw, hseq⟩ := mem_cleanedLines text cand.name (hcand cand hcm)
      rw [hseq] at hc
      exact cleanLine_no_hash raw (hrawlt raw hraw) c hc
  · intro ls1 ls2 l hl
    rw [normLines_drops_blank ls1 ls2 l hl]

/-- Witness for C8: a concrete parse whose quoted, commented name and
title lines come out clean, and a concrete comment line that contributes
nothing. -/
theorem C8_witness :
    ((∀ s, (ElectionResult.mk [] (JSNum.int 1) (some (JSNum.int 1))
          [⟨JSNum.int 1, [⟨1, [JSNum.int 1]⟩]⟩] [⟨("Amy"), 1⟩]
          (some ("The Title"))).electionName = some s →
        ∀ c ∈ s.data, c ≠ '"') ∧
     (∀ cand ∈ (ElectionResult.mk [] (JSNum.int 1) (some (JSNum.int 1))
          [⟨JSNum.int 1, [⟨1, [JSNum.int 1]⟩]⟩] [⟨("Amy"), 1⟩]
          (some ("The Title"))).candidates,
        ∀ c ∈ cand.name.data, c ≠ '"')) ∧
    ((∀ s, (ElectionResult.mk [] (JSNum.int 1) (some (JSNum.int 1))
          [⟨JSNum.int 1, [⟨1, [JSNum.int 1]⟩]⟩] [⟨("Amy"), 1⟩]
          (some ("The Title"))).electionName = some s →
        ∀ c ∈ s.data, c ≠ '#') ∧
     (∀ cand ∈ (ElectionResult.mk [] (JSNum.int 1) (some (JSNum.int 1))
          [⟨JSNum.int 1, [⟨1, [JSNum.int 1]⟩]⟩] [⟨("Amy"), 1⟩]
          (some ("The Title"))).candidates,
        ∀ c ∈ cand.name.data, c ≠ '#')) ∧
    parseFromCleaned (normLines ((("1 1") :: []) ++ ("# c") :: ("T") :: [])) =
      parseFromCleaned (normLines ((("1 1") :: []) ++ ("T") :: [])) :=
  ⟨C8_amended.1 ("1 1\n1 1 0\n0\n\"Amy\" # name\n\"The Title\" # title")
      (ElectionResult.mk [] (JSNum.int 1) (some (JSNum.int 1))
        [⟨JSNum.int 1, [⟨1, [JSNum.int 1]⟩]⟩] [⟨("Amy"), 1⟩]
        (some ("The Title")))
      (by decide),
   C8_amended.2.1 ("1 1\n1 1 0\n0\n\"Amy\" # name\n\"The Title\" # title")
      (ElectionResult.mk [] (JSNum.int 1) (some (JSNum.int 1))
        [⟨JSNum.int 1, [⟨1, [JSNum.int 1]⟩]⟩] [⟨("Amy"), 1⟩]
        (some ("The Title")))
      (by decide) (by decide),
   C8_amended.2.2 (("1 1") :: []) (("T") :: []) ("# c") (by decide)⟩
